import Mathlib

/-!
Verification of the environment-variable collection merging core of
`packages/core/src/node/env-variables/env-variables-server.ts`.

The TypeScript code keeps a registry (a JS `Map`, i.e. an insertion-ordered
association map) of per-extension environment-variable collections, merges
them into a single `MergedEnvironmentVariableCollectionImpl` whose `map`
sends each variable name to an ordered list of provenance-tagged mutators,
and applies such a merged collection to a process-environment snapshot.

JS `Map`s and plain string-keyed objects are modelled as association lists
`List (String × α)` in insertion order: `listGet` is `Map.get`, `listSet`
is `Map.set` (update in place, else append), `listDelete` is `Map.delete`.
`string | null` snapshot values are `Option String`; an absent key is a key
missing from the list.  The platform flag `isWindows` is passed explicitly.
-/

inductive EnvironmentVariableMutatorType where
  | Replace
  | Append
  | Prepend
deriving DecidableEq, Repr

structure EnvironmentVariableMutator where
  value : String
  type : EnvironmentVariableMutatorType
deriving DecidableEq, Repr

structure ExtensionOwnedEnvironmentVariableMutator where
  extensionIdentifier : String
  value : String
  type : EnvironmentVariableMutatorType
deriving DecidableEq, Repr

/-- A contributor collection (`EnvironmentVariableCollectionWithPersistence`):
a persistence flag plus an insertion-ordered map from variable name to
mutator. -/
structure EnvironmentVariableCollectionWithPersistence where
  persistent : Bool
  map : List (String × EnvironmentVariableMutator)
deriving DecidableEq, Repr

/-- JS `Map.get` / object indexing on an insertion-ordered association list. -/
def listGet {α : Type} (l : List (String × α)) (k : String) : Option α :=
  match l with
  | [] => none
  | (k', v) :: t => if k' = k then some v else listGet t k

/-- JS `Map.set` / object-key assignment: overwrite in place if the key is
present, otherwise append the new binding at the end. -/
def listSet {α : Type} (l : List (String × α)) (k : String) (v : α) :
    List (String × α) :=
  match l with
  | [] => [(k, v)]
  | (k', v') :: t => if k' = k then (k, v) :: t else (k', v') :: listSet t k v

/-- JS `Map.delete`: drop the binding for `k` if present. -/
def listDelete {α : Type} (l : List (String × α)) (k : String) :
    List (String × α) :=
  match l with
  | [] => []
  | (k', v') :: t => if k' = k then t else (k', v') :: listDelete t k

/-- The `mergedCollection.map` of the implementation: variable name to ordered
list of extension-owned mutators, in key insertion order. -/
abbrev MergedMap : Type :=
  List (String × List ExtensionOwnedEnvironmentVariableMutator)

/-- The server's `collections` registry: extension identifier to collection,
in registration (insertion) order. -/
abbrev Registry : Type :=
  List (String × EnvironmentVariableCollectionWithPersistence)

/-- The object literal `{ extensionIdentifier, value: mutator.value, type:
mutator.type }` pushed by the merge constructor. -/
def makeOwned (extensionIdentifier : String)
    (mutator : EnvironmentVariableMutator) :
    ExtensionOwnedEnvironmentVariableMutator :=
  { extensionIdentifier := extensionIdentifier
    value := mutator.value
    type := mutator.type }

/-- The guard `entry.length > 0 && entry[0].type ===
EnvironmentVariableMutatorType.Replace` of the merge constructor. -/
def headIsReplace (entry : List ExtensionOwnedEnvironmentVariableMutator) :
    Bool :=
  match entry with
  | [] => false
  | h :: _ => h.type = EnvironmentVariableMutatorType.Replace

/-- One iteration of the merge constructor's inner `while` loop: fetch (or
create empty) the entry for variable `v`, skip when its head is a Replace,
otherwise `unshift` the provenance-tagged mutator. -/
def processMutator (m : MergedMap) (extensionIdentifier v : String)
    (mutator : EnvironmentVariableMutator) : MergedMap :=
  let entry := (listGet m v).getD []
  if headIsReplace entry then m
  else listSet m v (makeOwned extensionIdentifier mutator :: entry)

/-- The merge constructor's walk over one contributor's collection, in the
collection's own insertion order. -/
def processCollection (m : MergedMap) (extensionIdentifier : String)
    (collection : EnvironmentVariableCollectionWithPersistence) : MergedMap :=
  collection.map.foldl
    (fun acc p => processMutator acc extensionIdentifier p.1 p.2) m

/-- Folding the merge constructor over a suffix of the registry starting from
an intermediate merged map `m`. -/
def mergeFrom (m : MergedMap) (collections : Registry) : MergedMap :=
  collections.foldl (fun acc p => processCollection acc p.1 p.2) m

/-- The constructor `new MergedEnvironmentVariableCollectionImpl(collections)`: fold every
registered collection, in registration order, into an initially empty map. -/
def mergeCollections (collections : Registry) : MergedMap :=
  mergeFrom [] collections

/-- The entry list recorded for variable `v` (empty when `v` is untouched). -/
def entryFor (m : MergedMap) (v : String) :
    List ExtensionOwnedEnvironmentVariableMutator :=
  (listGet m v).getD []

/-- The translation `new Map<string, EnvironmentVariableMutator>(collection)` applied to the
serialized pair list handed to `set`: later duplicates overwrite earlier
ones, first occurrence keeps its position. -/
def dedupEntries (collection : List (String × EnvironmentVariableMutator)) :
    List (String × EnvironmentVariableMutator) :=
  collection.foldl (fun acc p => listSet acc p.1 p.2) []

/-- The mutable state of `EnvVariablesServerImpl` relevant to this core. -/
structure ServerState where
  collections : Registry
  mergedCollection : MergedMap

/-- The operation `EnvVariablesServerImpl.set`: translate the serialized collection, store
it under the extension identifier, recompute the whole merged collection. -/
def serverSet (st : ServerState) (extensionIdentifier : String)
    (persistent : Bool)
    (collection : List (String × EnvironmentVariableMutator)) : ServerState :=
  let collections :=
    listSet st.collections extensionIdentifier
      { persistent := persistent, map := dedupEntries collection }
  { collections := collections
    mergedCollection := mergeCollections collections }

/-- The operation `EnvVariablesServerImpl.delete`: remove the collection (no-op when
absent), recompute the whole merged collection. -/
def serverDelete (st : ServerState) (extensionIdentifier : String) :
    ServerState :=
  let collections := listDelete st.collections extensionIdentifier
  { collections := collections
    mergedCollection := mergeCollections collections }

/-- A process-environment snapshot `{ [key: string]: string | null }`:
`some s` is a string value, `none` is JS `null`, a missing key is absent. -/
abbrev Env : Type :=
  List (String × Option String)

/-- The read of `env[k]` with the JS or-empty fallback: an absent key, a
null value and an empty value all read as the empty string. -/
def envRead (env : Env) (k : String) : String :=
  match listGet env k with
  | some (some v) => v
  | _ => ""

/-- JS `String.prototype.toLowerCase`, modelled characterwise. -/
def lowerName (s : String) : String :=
  ⟨s.data.map Char.toLower⟩

/-- The `lowerToActualVariableNames` table built by
`applyToProcessEnvironment` on Windows: lower-cased snapshot key to the
actual-cased key, later keys overwriting earlier ones. -/
def buildLowerMap (env : Env) : List (String × String) :=
  env.foldl (fun acc p => listSet acc (lowerName p.1) p.1) []

/-- The resolution step of the applier, written in the source as the lookup
of the lower-cased variable in the table with or-fallback to the variable
name itself; a looked-up empty string is falsy in JS, hence it also falls
back to `v`.  On a case-sensitive platform the name is used unchanged. -/
def resolveActual (isWindows : Bool) (lowerMap : List (String × String))
    (v : String) : String :=
  if isWindows then
    match listGet lowerMap (lowerName v) with
    | some k => if k = "" then v else k
    | none => v
  else v

/-- One `switch (mutator.type)` step of the applier, writing `env[k]`. -/
def applyMutator (env : Env) (k : String)
    (mutator : ExtensionOwnedEnvironmentVariableMutator) : Env :=
  match mutator.type with
  | EnvironmentVariableMutatorType.Append =>
      listSet env k (some (envRead env k ++ mutator.value))
  | EnvironmentVariableMutatorType.Prepend =>
      listSet env k (some (mutator.value ++ envRead env k))
  | EnvironmentVariableMutatorType.Replace =>
      listSet env k (some mutator.value)

/-- The inner loop of the applier: apply one variable's mutator list, in list
order, to the resolved key `k`. -/
def applyMutatorList (env : Env) (k : String)
    (mutators : List ExtensionOwnedEnvironmentVariableMutator) : Env :=
  mutators.foldl (fun acc mutator => applyMutator acc k mutator) env

/-- The outer loop of the applier with a fixed, precomputed lower-case table. -/
def applyAllWith (isWindows : Bool) (lowerMap : List (String × String))
    (merged : MergedMap) (env : Env) : Env :=
  merged.foldl
    (fun acc p => applyMutatorList acc (resolveActual isWindows lowerMap p.1) p.2)
    env

/-- The method `MergedEnvironmentVariableCollectionImpl.applyToProcessEnvironment`:
build the lower-case table once (on Windows only), then apply every entry
of the merged map in key insertion order. -/
def applyToProcessEnvironment (isWindows : Bool) (merged : MergedMap)
    (env : Env) : Env :=
  applyAllWith isWindows (if isWindows then buildLowerMap env else [])
    merged env

/-- Specification-level per-mutator value transformation (§4.3 of the spec):
Append concatenates on the right, Prepend on the left, Replace discards the
current value. -/
def mutatorStep (current : String)
    (mutator : ExtensionOwnedEnvironmentVariableMutator) : String :=
  match mutator.type with
  | EnvironmentVariableMutatorType.Append => current ++ mutator.value
  | EnvironmentVariableMutatorType.Prepend => mutator.value ++ current
  | EnvironmentVariableMutatorType.Replace => mutator.value

/-- Specification-level application of a whole mutator list, head first. -/
def applyValueList
    (mutators : List ExtensionOwnedEnvironmentVariableMutator)
    (current : String) : String :=
  mutators.foldl mutatorStep current

/-- Specification-level description of the merged entry for `v`: the
provenance-tagged mutators of exactly those contributors that have a
mutator for `v`, in registry order. -/
def contributionsFor (registry : Registry) (v : String) :
    List ExtensionOwnedEnvironmentVariableMutator :=
  registry.filterMap
    (fun p => (listGet p.2.map v).map (fun mutator => makeOwned p.1 mutator))

example :
    entryFor
      (mergeCollections
        [("ext1", ⟨true, [("VAR", ⟨"1", .Append⟩)]⟩),
         ("ext2", ⟨true, [("VAR", ⟨"2", .Append⟩)]⟩)]) "VAR"
      = [⟨"ext2", "2", .Append⟩, ⟨"ext1", "1", .Append⟩] := by decide

example :
    entryFor
      (mergeCollections
        [("ext1", ⟨true, [("VAR", ⟨"A", .Replace⟩)]⟩),
         ("ext2", ⟨true, [("VAR", ⟨"B", .Append⟩)]⟩)]) "VAR"
      = [⟨"ext1", "A", .Replace⟩] := by decide

example :
    applyToProcessEnvironment false
      [("VAR", [⟨"ext2", "2", .Append⟩, ⟨"ext1", "1", .Append⟩])] []
      = [("VAR", some "21")] := by decide

example :
    applyToProcessEnvironment true
      [("PATH", [⟨"ext", ":/opt/bin", .Append⟩])]
      [("Path", some "/usr/bin")]
      = [("Path", some "/usr/bin:/opt/bin")] := by decide

/-! ### Association-list lemmas -/

theorem listGet_set_self {α : Type} (l : List (String × α)) (k : String)
    (v : α) : listGet (listSet l k v) k = some v := by
  induction l with
  | nil => simp [listSet, listGet]
  | cons p t ih =>
    obtain ⟨k0, v0⟩ := p
    by_cases h0 : k0 = k
    · simp [listSet, listGet, h0]
    · simp [listSet, listGet, h0, ih]

theorem listGet_set_ne {α : Type} (l : List (String × α)) (k k' : String)
    (v : α) (h : k' ≠ k) : listGet (listSet l k v) k' = listGet l k' := by
  induction l with
  | nil => simp [listSet, listGet, Ne.symm h]
  | cons p t ih =>
    obtain ⟨k0, v0⟩ := p
    by_cases h0 : k0 = k
    · simp [listSet, listGet, h0, Ne.symm h]
    · simp [listSet, listGet, h0, ih]

theorem listGet_eq_none_iff {α : Type} (l : List (String × α)) (k : String) :
    listGet l k = none ↔ k ∉ l.map Prod.fst := by
  induction l with
  | nil => simp [listGet]
  | cons p t ih =>
    obtain ⟨k0, v0⟩ := p
    by_cases h0 : k0 = k
    · subst h0
      simp [listGet]
    · rw [List.map_cons, List.mem_cons]
      simp only [listGet, h0, if_false, ih]
      constructor
      · intro hn hc
        rcases hc with hc | hc
        · exact h0 hc.symm
        · exact hn hc
      · intro hn hc
        exact hn (Or.inr hc)

theorem listDelete_of_get_none {α : Type} (l : List (String × α))
    (k : String) (h : listGet l k = none) : listDelete l k = l := by
  induction l with
  | nil => simp [listDelete]
  | cons p t ih =>
    obtain ⟨k0, v0⟩ := p
    by_cases h0 : k0 = k
    · simp [listGet, h0] at h
    · simp only [listGet, h0, if_false] at h
      simp [listDelete, h0, ih h]

theorem listSet_map_fst_of_mem {α : Type} (l : List (String × α))
    (k : String) (v : α) (h : k ∈ l.map Prod.fst) :
    (listSet l k v).map Prod.fst = l.map Prod.fst := by
  induction l with
  | nil => simp at h
  | cons p t ih =>
    obtain ⟨k0, v0⟩ := p
    by_cases h0 : k0 = k
    · simp [listSet, h0]
    · rw [List.map_cons, List.mem_cons] at h
      rcases h with h | h
      · exact absurd h.symm h0
      · simp [listSet, h0, ih h]

theorem listSet_map_fst_of_not_mem {α : Type} (l : List (String × α))
    (k : String) (v : α) (h : k ∉ l.map Prod.fst) :
    (listSet l k v).map Prod.fst = l.map Prod.fst ++ [k] := by
  induction l with
  | nil => simp [listSet]
  | cons p t ih =>
    obtain ⟨k0, v0⟩ := p
    rw [List.map_cons, List.mem_cons] at h
    push_neg at h
    by_cases h0 : k0 = k
    · exact absurd h0.symm h.1
    · simp [listSet, h0, ih h.2]

theorem listSet_fst_nodup {α : Type} (l : List (String × α)) (k : String)
    (v : α) (h : (l.map Prod.fst).Nodup) :
    ((listSet l k v).map Prod.fst).Nodup := by
  by_cases hm : k ∈ l.map Prod.fst
  · rw [listSet_map_fst_of_mem l k v hm]
    exact h
  · rw [listSet_map_fst_of_not_mem l k v hm]
    simp [List.nodup_append, h, hm]

/-! ### Merge-constructor lemmas -/

theorem listGet_processMutator_ne (m : MergedMap)
    (extensionIdentifier v v' : String)
    (mutator : EnvironmentVariableMutator) (h : v' ≠ v) :
    listGet (processMutator m extensionIdentifier v mutator) v'
      = listGet m v' := by
  unfold processMutator
  by_cases hr : headIsReplace ((listGet m v).getD [])
  · simp [hr]
  · simp [hr, listGet_set_ne _ _ _ _ h]

theorem entryFor_processMutator_ne (m : MergedMap)
    (extensionIdentifier v v' : String)
    (mutator : EnvironmentVariableMutator) (h : v' ≠ v) :
    entryFor (processMutator m extensionIdentifier v mutator) v'
      = entryFor m v' := by
  unfold entryFor
  rw [listGet_processMutator_ne m extensionIdentifier v v' mutator h]

theorem entryFor_processMutator_self (m : MergedMap)
    (extensionIdentifier v : String)
    (mutator : EnvironmentVariableMutator) :
    entryFor (processMutator m extensionIdentifier v mutator) v
      = if headIsReplace (entryFor m v) then entryFor m v
        else makeOwned extensionIdentifier mutator :: entryFor m v := by
  unfold processMutator entryFor
  by_cases hr : headIsReplace ((listGet m v).getD [])
  · simp [entryFor, hr]
  · simp [entryFor, hr, listGet_set_self]

theorem listGet_processMutator_headReplace (m : MergedMap)
    (extensionIdentifier v v' : String)
    (mutator : EnvironmentVariableMutator)
    (h : headIsReplace (entryFor m v) = true) :
    listGet (processMutator m extensionIdentifier v' mutator) v
      = listGet m v := by
  by_cases hv : v' = v
  · subst hv
    have h' : headIsReplace ((listGet m v').getD []) = true := h
    simp [processMutator, h']
  · exact listGet_processMutator_ne m extensionIdentifier v' v mutator
      (fun hh => hv hh.symm)

theorem listGet_processCollection_headReplace (m : MergedMap)
    (extensionIdentifier v : String)
    (collection : EnvironmentVariableCollectionWithPersistence)
    (h : headIsReplace (entryFor m v) = true) :
    listGet (processCollection m extensionIdentifier collection) v
      = listGet m v := by
  unfold processCollection
  induction collection.map generalizing m with
  | nil => simp
  | cons p t ih =>
    rw [List.foldl_cons]
    have h1 : listGet (processMutator m extensionIdentifier p.1 p.2) v
        = listGet m v :=
      listGet_processMutator_headReplace m extensionIdentifier v p.1 p.2 h
    have h2 : headIsReplace
        (entryFor (processMutator m extensionIdentifier p.1 p.2) v) = true := by
      unfold entryFor
      rw [h1]
      exact h
    rw [ih _ h2, h1]

theorem listGet_mergeFrom_headReplace (m : MergedMap) (rest : Registry)
    (v : String) (h : headIsReplace (entryFor m v) = true) :
    listGet (mergeFrom m rest) v = listGet m v := by
  unfold mergeFrom
  induction rest generalizing m with
  | nil => simp
  | cons p t ih =>
    rw [List.foldl_cons]
    have h1 : listGet (processCollection m p.1 p.2) v = listGet m v :=
      listGet_processCollection_headReplace m p.1 v p.2 h
    have h2 : headIsReplace (entryFor (processCollection m p.1 p.2) v)
        = true := by
      unfold entryFor
      rw [h1]
      exact h
    rw [ih _ h2, h1]

theorem headIsReplace_false_head (h0 : ExtensionOwnedEnvironmentVariableMutator)
    (t0 : List ExtensionOwnedEnvironmentVariableMutator)
    (h : headIsReplace (h0 :: t0) = false) :
    h0.type ≠ EnvironmentVariableMutatorType.Replace := by
  simpa [headIsReplace] using h

theorem tailNoRep_processMutator (m : MergedMap)
    (extensionIdentifier v' v : String)
    (mutator : EnvironmentVariableMutator)
    (h : ∀ x ∈ (entryFor m v).tail,
      x.type ≠ EnvironmentVariableMutatorType.Replace) :
    ∀ x ∈ (entryFor (processMutator m extensionIdentifier v' mutator) v).tail,
      x.type ≠ EnvironmentVariableMutatorType.Replace := by
  by_cases hv : v' = v
  · subst hv
    rw [entryFor_processMutator_self]
    by_cases hr : headIsReplace (entryFor m v')
    · simpa [hr] using h
    · simp only [hr, if_false, Bool.false_eq_true, List.tail_cons]
      intro x hx
      cases hentry : entryFor m v' with
      | nil =>
        rw [hentry] at hx
        exact absurd hx (List.not_mem_nil x)
      | cons h0 t0 =>
        rw [hentry] at hx
        rcases List.mem_cons.mp hx with rfl | hx'
        · exact headIsReplace_false_head x t0 (by rw [hentry] at hr; simpa using hr)
        · refine h x ?_
          rw [hentry]
          exact hx'
  · rw [entryFor_processMutator_ne m extensionIdentifier v' v mutator
      (fun hh => hv hh.symm)]
    exact h

theorem tailNoRep_processCollection (m : MergedMap)
    (extensionIdentifier v : String)
    (collection : EnvironmentVariableCollectionWithPersistence)
    (h : ∀ x ∈ (entryFor m v).tail,
      x.type ≠ EnvironmentVariableMutatorType.Replace) :
    ∀ x ∈ (entryFor (processCollection m extensionIdentifier collection) v).tail,
      x.type ≠ EnvironmentVariableMutatorType.Replace := by
  unfold processCollection
  induction collection.map generalizing m with
  | nil => simpa using h
  | cons p t ih =>
    rw [List.foldl_cons]
    exact ih _ (tailNoRep_processMutator m extensionIdentifier p.1 v p.2 h)

theorem tailNoRep_mergeFrom (m : MergedMap) (registry : Registry) (v : String)
    (h : ∀ x ∈ (entryFor m v).tail,
      x.type ≠ EnvironmentVariableMutatorType.Replace) :
    ∀ x ∈ (entryFor (mergeFrom m registry) v).tail,
      x.type ≠ EnvironmentVariableMutatorType.Replace := by
  unfold mergeFrom
  induction registry generalizing m with
  | nil => simpa using h
  | cons p t ih =>
    rw [List.foldl_cons]
    exact ih _ (tailNoRep_processCollection m p.1 v p.2 h)

theorem tailNoRep_mergeCollections (registry : Registry) (v : String) :
    ∀ x ∈ (entryFor (mergeCollections registry) v).tail,
      x.type ≠ EnvironmentVariableMutatorType.Replace := by
  unfold mergeCollections
  refine tailNoRep_mergeFrom [] registry v ?_
  intro x hx
  simp [entryFor, listGet] at hx

/-- C2: once the recorded entry for a variable has a Replace mutator at its
head, processing any further contributors (starting with the one currently
being considered) leaves that entry exactly as it is: the contributor's
mutator for the variable is skipped, previously inserted mutators are not
removed, and no later-processed contributor adds anything for it. -/
theorem replace_head_blocks_later_contributors (m : MergedMap)
    (rest : Registry) (v : String)
    (hhead : headIsReplace (entryFor m v) = true) :
    entryFor (mergeFrom m rest) v = entryFor m v := by
  unfold entryFor
  rw [listGet_mergeFrom_headReplace m rest v hhead]

theorem replace_head_blocks_later_contributors_witness :
    headIsReplace
      (entryFor
        (mergeCollections
          [("extB", ⟨true, [("V", ⟨"b", .Append⟩)]⟩),
           ("extA", ⟨true, [("V", ⟨"a", .Replace⟩)]⟩)]) "V") = true
    ∧ entryFor
        (mergeFrom
          (mergeCollections
            [("extB", ⟨true, [("V", ⟨"b", .Append⟩)]⟩),
             ("extA", ⟨true, [("V", ⟨"a", .Replace⟩)]⟩)])
          [("extC", ⟨true, [("V", ⟨"c", .Append⟩)]⟩)]) "V"
      = entryFor
          (mergeCollections
            [("extB", ⟨true, [("V", ⟨"b", .Append⟩)]⟩),
             ("extA", ⟨true, [("V", ⟨"a", .Replace⟩)]⟩)]) "V" :=
  ⟨by decide,
    replace_head_blocks_later_contributors _
      [("extC", ⟨true, [("V", ⟨"c", .Append⟩)]⟩)] "V" (by decide)⟩

/-- C4: in any entry of a merged collection that contains a Replace mutator,
every element after the head is non-Replace (so the entry holds at most one
Replace and it sits at index 0), and processing any further contributors
never adds another mutator to that entry. -/
theorem merged_replace_exclusive (registry rest : Registry) (v : String)
    (hrep : ∃ x ∈ entryFor (mergeCollections registry) v,
      x.type = EnvironmentVariableMutatorType.Replace) :
    (∀ x ∈ (entryFor (mergeCollections registry) v).tail,
      x.type ≠ EnvironmentVariableMutatorType.Replace)
    ∧ entryFor (mergeFrom (mergeCollections registry) rest) v
        = entryFor (mergeCollections registry) v := by
  have hinv := tailNoRep_mergeCollections registry v
  refine ⟨hinv, ?_⟩
  obtain ⟨x, hx, hxt⟩ := hrep
  cases hentry : entryFor (mergeCollections registry) v with
  | nil =>
    rw [hentry] at hx
    exact absurd hx (List.not_mem_nil x)
  | cons h0 t0 =>
    rw [hentry] at hx
    have hhead : headIsReplace (entryFor (mergeCollections registry) v)
        = true := by
      rcases List.mem_cons.mp hx with rfl | hx' 
      · rw [hentry]
        simp [headIsReplace, hxt]
      · exfalso
        refine hinv x ?_ hxt
        rw [hentry]
        exact hx'
    unfold entryFor
    rw [listGet_mergeFrom_headReplace _ _ _ hhead]
    exact hentry

theorem merged_replace_exclusive_witness :
    entryFor
        (mergeFrom
          (mergeCollections
            [("extB", ⟨true, [("V", ⟨"b", .Append⟩)]⟩),
             ("extA", ⟨true, [("V", ⟨"a", .Replace⟩)]⟩)])
          [("extC", ⟨true, [("V", ⟨"c", .Prepend⟩)]⟩)]) "V"
      = entryFor
          (mergeCollections
            [("extB", ⟨true, [("V", ⟨"b", .Append⟩)]⟩),
             ("extA", ⟨true, [("V", ⟨"a", .Replace⟩)]⟩)]) "V" :=
  (merged_replace_exclusive
    [("extB", ⟨true, [("V", ⟨"b", .Append⟩)]⟩),
     ("extA", ⟨true, [("V", ⟨"a", .Replace⟩)]⟩)]
    [("extC", ⟨true, [("V", ⟨"c", .Prepend⟩)]⟩)]
    "V" (by decide)).2

theorem headIsReplace_eq_false
    (l : List ExtensionOwnedEnvironmentVariableMutator)
    (h : ∀ x ∈ l, x.type ≠ EnvironmentVariableMutatorType.Replace) :
    headIsReplace l = false := by
  cases l with
  | nil => rfl
  | cons h0 t0 => simp [headIsReplace, h h0 (List.mem_cons_self h0 t0)]

theorem foldl_entry_noRep (ps : List (String × EnvironmentVariableMutator))
    (m : MergedMap) (extensionIdentifier v : String)
    (hnd : (ps.map Prod.fst).Nodup)
    (hc : ∀ q ∈ ps, q.1 = v →
      q.2.type ≠ EnvironmentVariableMutatorType.Replace)
    (hm : ∀ x ∈ entryFor m v,
      x.type ≠ EnvironmentVariableMutatorType.Replace) :
    entryFor
        (ps.foldl (fun acc p => processMutator acc extensionIdentifier p.1 p.2)
          m) v
      = ((listGet ps v).map
          (fun mutator => makeOwned extensionIdentifier mutator)).toList
        ++ entryFor m v
    ∧ ∀ x ∈ entryFor
        (ps.foldl (fun acc p => processMutator acc extensionIdentifier p.1 p.2)
          m) v,
        x.type ≠ EnvironmentVariableMutatorType.Replace := by
  induction ps generalizing m with
  | nil => exact ⟨by simp [listGet], hm⟩
  | cons p t ih =>
    obtain ⟨k0, mutator0⟩ := p
    rw [List.map_cons, List.nodup_cons] at hnd
    by_cases hk : k0 = v
    · subst hk
      have hmut : mutator0.type ≠ EnvironmentVariableMutatorType.Replace :=
        hc (k0, mutator0) (List.mem_cons_self _ _) rfl
      have hhead : headIsReplace (entryFor m k0) = false :=
        headIsReplace_eq_false _ hm
      have h1 : entryFor (processMutator m extensionIdentifier k0 mutator0) k0
          = makeOwned extensionIdentifier mutator0 :: entryFor m k0 := by
        rw [entryFor_processMutator_self, hhead]
        simp
      have hm1 : ∀ x ∈ entryFor
          (processMutator m extensionIdentifier k0 mutator0) k0,
          x.type ≠ EnvironmentVariableMutatorType.Replace := by
        rw [h1]
        intro x hx
        rcases List.mem_cons.mp hx with rfl | hx'
        · simpa [makeOwned] using hmut
        · exact hm x hx'
      have hct : ∀ q ∈ t, q.1 = k0 →
          q.2.type ≠ EnvironmentVariableMutatorType.Replace := by
        intro q hq hqv
        exact absurd (List.mem_map.mpr ⟨q, hq, hqv⟩) hnd.1
      have htget : listGet t k0 = none :=
        (listGet_eq_none_iff t k0).mpr hnd.1
      obtain ⟨ihe, ihr⟩ := ih _ hnd.2 hct hm1
      rw [List.foldl_cons]
      constructor
      · rw [ihe, htget, h1]
        simp [listGet]
      · exact ihr
    · have h1 : entryFor (processMutator m extensionIdentifier k0 mutator0) v
          = entryFor m v :=
        entryFor_processMutator_ne m extensionIdentifier k0 v mutator0
          (fun hh => hk hh.symm)
      have hm1 : ∀ x ∈ entryFor
          (processMutator m extensionIdentifier k0 mutator0) v,
          x.type ≠ EnvironmentVariableMutatorType.Replace := by
        rw [h1]
        exact hm
      have hct : ∀ q ∈ t, q.1 = v →
          q.2.type ≠ EnvironmentVariableMutatorType.Replace :=
        fun q hq => hc q (List.mem_cons_of_mem _ hq)
      obtain ⟨ihe, ihr⟩ := ih _ hnd.2 hct hm1
      rw [List.foldl_cons]
      constructor
      · rw [ihe, h1]
        simp [listGet, hk]
      · exact ihr

theorem mergeFrom_entry_noRep (registry : Registry) (m : MergedMap)
    (v : String)
    (hnd : ∀ p ∈ registry, ((p.2.map).map Prod.fst).Nodup)
    (hr : ∀ p ∈ registry, ∀ q ∈ p.2.map, q.1 = v →
      q.2.type ≠ EnvironmentVariableMutatorType.Replace)
    (hm : ∀ x ∈ entryFor m v,
      x.type ≠ EnvironmentVariableMutatorType.Replace) :
    entryFor (mergeFrom m registry) v
      = (contributionsFor registry v).reverse ++ entryFor m v := by
  induction registry generalizing m with
  | nil => simp [mergeFrom, contributionsFor]
  | cons p t ih =>
    obtain ⟨e0, c0⟩ := p
    have hnd0 : ((c0.map).map Prod.fst).Nodup :=
      hnd (e0, c0) (List.mem_cons_self _ _)
    have hc0 : ∀ q ∈ c0.map, q.1 = v →
        q.2.type ≠ EnvironmentVariableMutatorType.Replace :=
      hr (e0, c0) (List.mem_cons_self _ _)
    obtain ⟨h1, hm1⟩ := foldl_entry_noRep c0.map m e0 v hnd0 hc0 hm
    have hndt : ∀ p ∈ t, ((p.2.map).map Prod.fst).Nodup :=
      fun p hp => hnd p (List.mem_cons_of_mem _ hp)
    have hrt : ∀ p ∈ t, ∀ q ∈ p.2.map, q.1 = v →
        q.2.type ≠ EnvironmentVariableMutatorType.Replace :=
      fun p hp => hr p (List.mem_cons_of_mem _ hp)
    have hstep : mergeFrom m ((e0, c0) :: t)
        = mergeFrom (processCollection m e0 c0) t := by
      simp [mergeFrom]
    have h1' : entryFor (processCollection m e0 c0) v
        = ((listGet c0.map v).map
            (fun mutator => makeOwned e0 mutator)).toList
          ++ entryFor m v := h1
    have hm1' : ∀ x ∈ entryFor (processCollection m e0 c0) v,
        x.type ≠ EnvironmentVariableMutatorType.Replace := hm1
    rw [hstep, ih _ hndt hrt hm1', h1']
    unfold contributionsFor
    rw [List.filterMap_cons]
    cases hg : listGet c0.map v with
    | none => simp [hg]
    | some mutator0 => simp [hg]

/-- C1: when no contributor supplies a Replace mutator for variable `v`, the
merged entry for `v` is exactly the provenance-tagged mutators of the
contributors that have a mutator for `v`, in reverse registration order:
the most recently processed contributor's mutator is the head. -/
theorem merged_entry_reverse_registration (registry : Registry) (v : String)
    (hnd : ∀ p ∈ registry, ((p.2.map).map Prod.fst).Nodup)
    (hnorep : ∀ p ∈ registry, ∀ q ∈ p.2.map, q.1 = v →
      q.2.type ≠ EnvironmentVariableMutatorType.Replace) :
    entryFor (mergeCollections registry) v
      = (contributionsFor registry v).reverse := by
  have h := mergeFrom_entry_noRep registry [] v hnd hnorep
    (by intro x hx; simp [entryFor, listGet] at hx)
  rw [show entryFor ([] : MergedMap) v = [] from rfl, List.append_nil] at h
  exact h

theorem merged_entry_reverse_registration_witness :
    entryFor
        (mergeCollections
          [("ext1", ⟨true, [("VAR", ⟨"1", .Append⟩)]⟩),
           ("ext2", ⟨true, [("VAR", ⟨"2", .Append⟩)]⟩)]) "VAR"
      = (contributionsFor
          [("ext1", ⟨true, [("VAR", ⟨"1", .Append⟩)]⟩),
           ("ext2", ⟨true, [("VAR", ⟨"2", .Append⟩)]⟩)] "VAR").reverse :=
  merged_entry_reverse_registration
    [("ext1", ⟨true, [("VAR", ⟨"1", .Append⟩)]⟩),
     ("ext2", ⟨true, [("VAR", ⟨"2", .Append⟩)]⟩)] "VAR"
    (by decide) (by decide)

/-! ### Applier lemmas -/

theorem envRead_listSet_self (env : Env) (k s : String) :
    envRead (listSet env k (some s)) k = s := by
  unfold envRead
  rw [listGet_set_self]

theorem applyMutator_read (env : Env) (k : String)
    (mutator : ExtensionOwnedEnvironmentVariableMutator) :
    envRead (applyMutator env k mutator)
      k = mutatorStep (envRead env k) mutator := by
  obtain ⟨e0, val0, ty0⟩ := mutator
  cases ty0 <;> simp [applyMutator, mutatorStep, envRead_listSet_self]

theorem applyMutatorList_read
    (mutators : List ExtensionOwnedEnvironmentVariableMutator)
    (env : Env) (k : String) :
    envRead (applyMutatorList env k mutators)
      k = applyValueList mutators (envRead env k) := by
  induction mutators generalizing env with
  | nil => rfl
  | cons mutator0 t ih =>
    rw [show applyMutatorList env k (mutator0 :: t)
        = applyMutatorList (applyMutator env k mutator0) k t from rfl]
    rw [ih, applyMutator_read]
    rfl

/-- C3: the applier applies a variable's mutator list to the resolved key in
list order, head first: each step reads the current value (absent and null
both read as the empty string), appends for Append, prepends for Prepend
and overwrites for Replace, matching the specification-level value fold. -/
theorem applier_applies_in_list_order (env : Env) (k : String)
    (mutators : List ExtensionOwnedEnvironmentVariableMutator) :
    envRead (applyMutatorList env k mutators) k
      = applyValueList mutators (envRead env k)
    ∧ (listGet env k = none → envRead env k = "")
    ∧ (listGet env k = some none → envRead env k = "") :=
  ⟨applyMutatorList_read mutators env k,
   fun h => by simp [envRead, h],
   fun h => by simp [envRead, h]⟩

theorem applier_applies_in_list_order_witness :
    envRead
        (applyMutatorList [("VAR", some "x")] "VAR"
          [⟨"e1", "b", .Append⟩, ⟨"e2", "p", .Prepend⟩]) "VAR"
      = applyValueList [⟨"e1", "b", .Append⟩, ⟨"e2", "p", .Prepend⟩]
          (envRead [("VAR", some "x")] "VAR")
    ∧ envRead ([] : Env) "VAR" = ""
    ∧ envRead [("VAR", none)] "VAR" = "" :=
  ⟨(applier_applies_in_list_order [("VAR", some "x")] "VAR"
      [⟨"e1", "b", .Append⟩, ⟨"e2", "p", .Prepend⟩]).1,
   (applier_applies_in_list_order [] "VAR" []).2.1 (by decide),
   (applier_applies_in_list_order [("VAR", none)] "VAR" []).2.2 (by decide)⟩

/-- C6: after `set` and after `delete` the stored merged collection is the
one freshly recomputed, wholesale, from the registry's current contents. -/
theorem merged_is_wholesale_recompute (st : ServerState)
    (extensionIdentifier : String) (persistent : Bool)
    (collection : List (String × EnvironmentVariableMutator)) :
    (serverSet st extensionIdentifier persistent collection).mergedCollection
      = mergeCollections
          (serverSet st extensionIdentifier persistent collection).collections
    ∧ (serverDelete st extensionIdentifier).mergedCollection
        = mergeCollections
            (serverDelete st extensionIdentifier).collections :=
  ⟨rfl, rfl⟩

/-- C7: deleting an extension identifier that is not registered changes
neither the registry contents nor the merged collection. -/
theorem delete_absent_noop (st : ServerState) (extensionIdentifier : String)
    (hid : listGet st.collections extensionIdentifier = none)
    (hwf : st.mergedCollection = mergeCollections st.collections) :
    (serverDelete st extensionIdentifier).collections = st.collections
    ∧ (serverDelete st extensionIdentifier).mergedCollection
        = st.mergedCollection := by
  have hdel := listDelete_of_get_none st.collections extensionIdentifier hid
  constructor
  · show listDelete st.collections extensionIdentifier = st.collections
    exact hdel
  · show mergeCollections (listDelete st.collections extensionIdentifier)
      = st.mergedCollection
    rw [hdel, hwf]

theorem delete_absent_noop_witness :
    (serverDelete
        ⟨[("e1", ⟨true, [("V", ⟨"x", .Append⟩)]⟩)],
         mergeCollections [("e1", ⟨true, [("V", ⟨"x", .Append⟩)]⟩)]⟩
        "ghost").collections
      = [("e1", ⟨true, [("V", ⟨"x", .Append⟩)]⟩)]
    ∧ (serverDelete
        ⟨[("e1", ⟨true, [("V", ⟨"x", .Append⟩)]⟩)],
         mergeCollections [("e1", ⟨true, [("V", ⟨"x", .Append⟩)]⟩)]⟩
        "ghost").mergedCollection
      = mergeCollections [("e1", ⟨true, [("V", ⟨"x", .Append⟩)]⟩)] :=
  delete_absent_noop
    ⟨[("e1", ⟨true, [("V", ⟨"x", .Append⟩)]⟩)],
     mergeCollections [("e1", ⟨true, [("V", ⟨"x", .Append⟩)]⟩)]⟩
    "ghost" (by decide) rfl

/-- C8: merging is a pure function of the registry contents: equal registry
states give merged collections with, for every variable, identical entry
lists. -/
theorem merge_deterministic (r1 r2 : Registry) (h : r1 = r2) :
    ∀ v, listGet (mergeCollections r1) v
      = listGet (mergeCollections r2) v := by
  subst h
  intro v
  rfl

theorem merge_deterministic_witness :
    listGet (mergeCollections [("e1", ⟨true, [("V", ⟨"x", .Append⟩)]⟩)]) "V"
      = listGet
          (mergeCollections [("e1", ⟨true, [("V", ⟨"x", .Append⟩)]⟩)]) "V" :=
  merge_deterministic _ _ rfl "V"

/-! ### Case-insensitive name resolution -/

theorem lowerName_empty : lowerName "" = "" := by
  rfl

theorem lowerName_eq_empty (s : String) (h : lowerName s = "") : s = "" := by
  have h2 : s.data.map Char.toLower = ("" : String).data :=
    congrArg String.data h
  have h3 : s.data = [] := by
    rw [show ("" : String).data = [] from rfl] at h2
    exact List.map_eq_nil_iff.mp h2
  exact String.ext (by rw [h3])

theorem buildLower_fold_get_no_match (l : Env)
    (acc : List (String × String)) (t : String)
    (h : ∀ p ∈ l, lowerName p.1 ≠ t) :
    listGet (l.foldl (fun acc p => listSet acc (lowerName p.1) p.1) acc) t
      = listGet acc t := by
  induction l generalizing acc with
  | nil => rfl
  | cons p0 rest ih =>
    rw [List.foldl_cons]
    rw [ih _ (fun p hp => h p (List.mem_cons_of_mem _ hp))]
    exact listGet_set_ne acc (lowerName p0.1) t p0.1
      (Ne.symm (h p0 (List.mem_cons_self _ _)))

theorem buildLower_fold_get_preserve (l : Env)
    (acc : List (String × String)) (t k : String)
    (hacc : listGet acc t = some k)
    (hall : ∀ p ∈ l, lowerName p.1 = t → p.1 = k) :
    listGet (l.foldl (fun acc p => listSet acc (lowerName p.1) p.1) acc) t
      = some k := by
  induction l generalizing acc with
  | nil => exact hacc
  | cons p0 rest ih =>
    rw [List.foldl_cons]
    refine ih _ ?_ (fun p hp => hall p (List.mem_cons_of_mem _ hp))
    by_cases h0 : lowerName p0.1 = t
    · have hp0 : p0.1 = k := hall p0 (List.mem_cons_self _ _) h0
      rw [h0, hp0]
      exact listGet_set_self acc t k
    · rw [listGet_set_ne acc (lowerName p0.1) t p0.1 (Ne.symm h0)]
      exact hacc

theorem buildLower_fold_get_unique (l : Env)
    (acc : List (String × String)) (t k : String)
    (hacc : listGet acc t = none)
    (hmem : k ∈ l.map Prod.fst) (hk : lowerName k = t)
    (huniq : ∀ k' ∈ l.map Prod.fst, lowerName k' = t → k' = k) :
    listGet (l.foldl (fun acc p => listSet acc (lowerName p.1) p.1) acc) t
      = some k := by
  induction l generalizing acc with
  | nil => simp at hmem
  | cons p0 rest ih =>
    rw [List.foldl_cons]
    by_cases h0 : lowerName p0.1 = t
    · have hp0 : p0.1 = k := by
        refine huniq p0.1 ?_ h0
        rw [List.map_cons]
        exact List.mem_cons_self _ _
      refine buildLower_fold_get_preserve rest _ t k ?_ ?_
      · rw [h0, hp0]
        exact listGet_set_self acc t k
      · intro p hp hlp
        refine huniq p.1 ?_ hlp
        rw [List.map_cons]
        exact List.mem_cons_of_mem _ (List.mem_map_of_mem Prod.fst hp)
    · have hkmem : k ∈ rest.map Prod.fst := by
        rw [List.map_cons] at hmem
        rcases List.mem_cons.mp hmem with h1 | h1
        · exact absurd (h1 ▸ hk) h0
        · exact h1
      have huniq' : ∀ k' ∈ rest.map Prod.fst, lowerName k' = t → k' = k := by
        intro k' hk' hlk'
        refine huniq k' ?_ hlk'
        rw [List.map_cons]
        exact List.mem_cons_of_mem _ hk'
      refine ih _ ?_ hkmem huniq'
      rw [listGet_set_ne acc (lowerName p0.1) t p0.1 (Ne.symm h0)]
      exact hacc

/-- C5: on a case-insensitive platform the applier resolves a merged
variable name to the unique existing snapshot key with the same
lower-casing when there is one (keeping that key's original casing), and to
the variable name itself when no snapshot key matches; on a case-sensitive
platform the name is used as-is.  Concretely, appending for "PATH" onto
snapshot Path=/usr/bin updates the existing Path key. -/
theorem windows_case_insensitive_resolution (env : Env) (v k : String)
    (hmem : k ∈ env.map Prod.fst)
    (hl : lowerName k = lowerName v)
    (huniq : ∀ k' ∈ env.map Prod.fst,
      lowerName k' = lowerName v → k' = k) :
    resolveActual true (buildLowerMap env) v = k
    ∧ (∀ env' : Env,
        (∀ k' ∈ env'.map Prod.fst, lowerName k' ≠ lowerName v) →
        resolveActual true (buildLowerMap env') v = v)
    ∧ (∀ lowerMap, resolveActual false lowerMap v = v)
    ∧ applyToProcessEnvironment true
        [("PATH", [⟨"ext", ":/opt/bin", .Append⟩])]
        [("Path", some "/usr/bin")]
      = [("Path", some "/usr/bin:/opt/bin")] := by
  refine ⟨?_, ?_, fun lowerMap => rfl, by decide⟩
  · have hget : listGet (buildLowerMap env) (lowerName v) = some k :=
      buildLower_fold_get_unique env [] (lowerName v) k rfl hmem hl huniq
    by_cases hke : k = ""
    · subst hke
      have hv : v = "" := by
        refine lowerName_eq_empty v ?_
        rw [← hl]
        exact lowerName_empty
      subst hv
      simp [resolveActual, hget]
    · simp [resolveActual, hget, hke]
  · intro env' hno
    have hget : listGet (buildLowerMap env') (lowerName v) = none := by
      unfold buildLowerMap
      rw [buildLower_fold_get_no_match env' [] (lowerName v)
        (fun p hp => hno p.1 (List.mem_map_of_mem Prod.fst hp))]
      rfl
    simp [resolveActual, hget]

theorem windows_case_insensitive_resolution_witness :
    resolveActual true (buildLowerMap [("Path", some "/usr/bin")]) "PATH"
      = "Path" :=
  (windows_case_insensitive_resolution [("Path", some "/usr/bin")]
    "PATH" "Path" (by decide) (by decide) (by decide)).1

/-! ### Applier frame lemmas -/

theorem listGet_applyMutator_ne (env : Env) (k k' : String)
    (mutator : ExtensionOwnedEnvironmentVariableMutator) (h : k' ≠ k) :
    listGet (applyMutator env k mutator) k' = listGet env k' := by
  obtain ⟨e0, val0, ty0⟩ := mutator
  cases ty0 with
  | Replace => exact listGet_set_ne env k k' _ h
  | Append => exact listGet_set_ne env k k' _ h
  | Prepend => exact listGet_set_ne env k k' _ h

theorem listGet_applyMutatorList_ne
    (mutators : List ExtensionOwnedEnvironmentVariableMutator)
    (env : Env) (k k' : String) (h : k' ≠ k) :
    listGet (applyMutatorList env k mutators) k' = listGet env k' := by
  induction mutators generalizing env with
  | nil => rfl
  | cons mutator0 t ih =>
    rw [show applyMutatorList env k (mutator0 :: t)
        = applyMutatorList (applyMutator env k mutator0) k t from rfl]
    rw [ih _]
    exact listGet_applyMutator_ne env k k' mutator0 h

theorem envRead_applyMutatorList_ne
    (mutators : List ExtensionOwnedEnvironmentVariableMutator)
    (env : Env) (k k' : String) (h : k' ≠ k) :
    envRead (applyMutatorList env k mutators) k' = envRead env k' := by
  unfold envRead
  rw [listGet_applyMutatorList_ne mutators env k k' h]

theorem listGet_applyAllWith_ne (isWindows : Bool)
    (lowerMap : List (String × String)) (merged : MergedMap) (env : Env)
    (k : String)
    (h : ∀ p ∈ merged, resolveActual isWindows lowerMap p.1 ≠ k) :
    listGet (applyAllWith isWindows lowerMap merged env) k
      = listGet env k := by
  induction merged generalizing env with
  | nil => rfl
  | cons p0 t ih =>
    rw [show applyAllWith isWindows lowerMap (p0 :: t) env
        = applyAllWith isWindows lowerMap t
            (applyMutatorList env (resolveActual isWindows lowerMap p0.1)
              p0.2) from rfl]
    rw [ih _ (fun p hp => h p (List.mem_cons_of_mem _ hp))]
    exact listGet_applyMutatorList_ne p0.2 env _ k
      (fun hh => h p0 (List.mem_cons_self _ _) hh.symm)

theorem listSet_fst_mem {α : Type} (l : List (String × α)) (k : String)
    (v : α) (k' : String) (h : k' ∈ l.map Prod.fst) :
    k' ∈ (listSet l k v).map Prod.fst := by
  by_cases hm : k ∈ l.map Prod.fst
  · rw [listSet_map_fst_of_mem l k v hm]
    exact h
  · rw [listSet_map_fst_of_not_mem l k v hm]
    exact List.mem_append_left _ h

theorem applyMutator_fst_mem (env : Env) (k : String)
    (mutator : ExtensionOwnedEnvironmentVariableMutator) (k' : String)
    (h : k' ∈ env.map Prod.fst) :
    k' ∈ (applyMutator env k mutator).map Prod.fst := by
  obtain ⟨e0, val0, ty0⟩ := mutator
  cases ty0 with
  | Replace => exact listSet_fst_mem env k _ k' h
  | Append => exact listSet_fst_mem env k _ k' h
  | Prepend => exact listSet_fst_mem env k _ k' h

theorem applyMutatorList_fst_mem
    (mutators : List ExtensionOwnedEnvironmentVariableMutator)
    (env : Env) (k k' : String) (h : k' ∈ env.map Prod.fst) :
    k' ∈ (applyMutatorList env k mutators).map Prod.fst := by
  induction mutators generalizing env with
  | nil => exact h
  | cons mutator0 t ih =>
    exact ih _ (applyMutator_fst_mem env k mutator0 k' h)

theorem applyAllWith_fst_mem (isWindows : Bool)
    (lowerMap : List (String × String)) (merged : MergedMap) (env : Env)
    (k' : String) (h : k' ∈ env.map Prod.fst) :
    k' ∈ (applyAllWith isWindows lowerMap merged env).map Prod.fst := by
  induction merged generalizing env with
  | nil => exact h
  | cons p0 t ih =>
    exact ih _ (applyMutatorList_fst_mem p0.2 env _ k' h)

theorem listGet_listSet_some_null (env : Env) (k s k' : String)
    (h : listGet (listSet env k (some s)) k' = some none) :
    listGet env k' = some none := by
  by_cases hk : k' = k
  · subst hk
    rw [listGet_set_self] at h
    simp at h
  · rw [listGet_set_ne env k k' _ hk] at h
    exact h

theorem applyMutator_null (env : Env) (k : String)
    (mutator : ExtensionOwnedEnvironmentVariableMutator) (k' : String)
    (h : listGet (applyMutator env k mutator) k' = some none) :
    listGet env k' = some none := by
  obtain ⟨e0, val0, ty0⟩ := mutator
  cases ty0 with
  | Replace => exact listGet_listSet_some_null env k _ k' h
  | Append => exact listGet_listSet_some_null env k _ k' h
  | Prepend => exact listGet_listSet_some_null env k _ k' h

theorem applyMutatorList_null
    (mutators : List ExtensionOwnedEnvironmentVariableMutator)
    (env : Env) (k k' : String)
    (h : listGet (applyMutatorList env k mutators) k' = some none) :
    listGet env k' = some none := by
  induction mutators generalizing env with
  | nil => exact h
  | cons mutator0 t ih =>
    exact applyMutator_null env k mutator0 k' (ih _ h)

theorem applyAllWith_null (isWindows : Bool)
    (lowerMap : List (String × String)) (merged : MergedMap) (env : Env)
    (k' : String)
    (h : listGet (applyAllWith isWindows lowerMap merged env) k'
      = some none) :
    listGet env k' = some none := by
  induction merged generalizing env with
  | nil => exact h
  | cons p0 t ih =>
    exact applyMutatorList_null p0.2 env _ k' (ih _ h)

/-- C10: the applier only writes snapshot keys that some merged variable
name resolves to (via the table built from the initial snapshot); any other
key keeps its exact binding, no key is ever removed, null is never newly
assigned, and an empty merged collection leaves the snapshot unchanged. -/
theorem applier_frame (isWindows : Bool) (merged : MergedMap) (env : Env)
    (k : String)
    (hk : ∀ p ∈ merged,
      resolveActual isWindows (buildLowerMap env) p.1 ≠ k) :
    listGet (applyToProcessEnvironment isWindows merged env) k = listGet env k
    ∧ (∀ k' ∈ env.map Prod.fst,
        k' ∈ (applyToProcessEnvironment isWindows merged env).map Prod.fst)
    ∧ (∀ k', listGet (applyToProcessEnvironment isWindows merged env) k'
        = some none → listGet env k' = some none)
    ∧ applyToProcessEnvironment isWindows ([] : MergedMap) env = env := by
  refine ⟨?_, ?_, ?_, rfl⟩
  · cases isWindows with
    | false => exact listGet_applyAllWith_ne false [] merged env k hk
    | true =>
      exact listGet_applyAllWith_ne true (buildLowerMap env) merged env k hk
  · intro k' hk'
    exact applyAllWith_fst_mem isWindows _ merged env k' hk'
  · intro k' h
    exact applyAllWith_null isWindows _ merged env k' h

theorem applier_frame_witness :
    listGet
        (applyToProcessEnvironment false [("A", [⟨"e1", "x", .Append⟩])]
          [("B", some "b")]) "B"
      = listGet [("B", some "b")] "B" :=
  (applier_frame false [("A", [⟨"e1", "x", .Append⟩])] [("B", some "b")]
    "B" (by decide)).1

/-! ### Nodup keys of the merged collection -/

theorem processMutator_fst_nodup (m : MergedMap)
    (extensionIdentifier v : String)
    (mutator : EnvironmentVariableMutator)
    (h : (m.map Prod.fst).Nodup) :
    ((processMutator m extensionIdentifier v mutator).map Prod.fst).Nodup := by
  unfold processMutator
  by_cases hr : headIsReplace ((listGet m v).getD [])
  · simpa [hr] using h
  · simp only [hr, Bool.false_eq_true, if_false]
    exact listSet_fst_nodup m v _ h

theorem processCollection_fst_nodup (m : MergedMap)
    (extensionIdentifier : String)
    (collection : EnvironmentVariableCollectionWithPersistence)
    (h : (m.map Prod.fst).Nodup) :
    ((processCollection m extensionIdentifier collection).map
      Prod.fst).Nodup := by
  unfold processCollection
  induction collection.map generalizing m with
  | nil => exact h
  | cons p t ih =>
    rw [List.foldl_cons]
    exact ih _ (processMutator_fst_nodup m extensionIdentifier p.1 p.2 h)

theorem mergeCollections_fst_nodup (registry : Registry) :
    ((mergeCollections registry).map Prod.fst).Nodup := by
  unfold mergeCollections mergeFrom
  have h : (([] : MergedMap).map Prod.fst).Nodup := List.nodup_nil
  generalize ([] : MergedMap) = m at h ⊢
  induction registry generalizing m with
  | nil => exact h
  | cons p t ih =>
    rw [List.foldl_cons]
    exact ih _ (processCollection_fst_nodup m p.1 p.2 h)

/-! ### Value of a variable after case-sensitive application -/

theorem applyAllWith_false_read (lowerMap : List (String × String))
    (merged : MergedMap) (env : Env) (v : String)
    (hnd : (merged.map Prod.fst).Nodup) :
    envRead (applyAllWith false lowerMap merged env) v
      = applyValueList (entryFor merged v) (envRead env v) := by
  induction merged generalizing env with
  | nil => rfl
  | cons p0 t ih =>
    obtain ⟨k0, ms0⟩ := p0
    rw [List.map_cons, List.nodup_cons] at hnd
    rw [show applyAllWith false lowerMap ((k0, ms0) :: t) env
        = applyAllWith false lowerMap t (applyMutatorList env k0 ms0)
      from rfl]
    by_cases hk : k0 = v
    · subst hk
      have he : entryFor t k0 = [] := by
        unfold entryFor
        rw [(listGet_eq_none_iff t k0).mpr hnd.1]
        rfl
      have he2 : entryFor ((k0, ms0) :: t) k0 = ms0 := by
        simp [entryFor, listGet]
      rw [ih _ hnd.2, he, he2]
      rw [show applyValueList []
          (envRead (applyMutatorList env k0 ms0) k0)
        = envRead (applyMutatorList env k0 ms0) k0 from rfl]
      exact applyMutatorList_read ms0 env k0
    · have he2 : entryFor ((k0, ms0) :: t) v = entryFor t v := by
        simp [entryFor, listGet, hk]
      rw [ih _ hnd.2, he2,
        envRead_applyMutatorList_ne ms0 env k0 v (fun hh => hk hh.symm)]

/-- C9 counterexample: on the case-insensitive platform the claim fails.
The single contributor registers a Replace for "a" and an Append for "A".
The merged entry for "a" is exactly a Replace, yet against the empty
snapshot the final value of the resolved key "a" is "R", while against a
snapshot differing only in the key "a" (present as "z") the name "A" also
resolves to the existing key "a", and the final value becomes "Rx". -/
theorem replace_shields_snapshot_cex :
    entryFor
        (mergeCollections
          [("ext1", ⟨true, [("a", ⟨"R", .Replace⟩), ("A", ⟨"x", .Append⟩)]⟩)])
        "a"
      = [⟨"ext1", "R", EnvironmentVariableMutatorType.Replace⟩]
    ∧ envRead
        (applyToProcessEnvironment true
          (mergeCollections
            [("ext1",
              ⟨true, [("a", ⟨"R", .Replace⟩), ("A", ⟨"x", .Append⟩)]⟩)])
          ([] : Env)) "a"
      = "R"
    ∧ envRead
        (applyToProcessEnvironment true
          (mergeCollections
            [("ext1",
              ⟨true, [("a", ⟨"R", .Replace⟩), ("A", ⟨"x", .Append⟩)]⟩)])
          [("a", some "z")]) "a"
      = "Rx" := by
  refine ⟨by decide, by decide, by decide⟩

/-- C9 (amended): on a case-sensitive platform, if the merged entry for `v`
contains a Replace mutator, the final value of `v` after application is
independent of `v`'s presence or value in the input snapshot. -/
theorem replace_shields_snapshot (registry : Registry) (v : String)
    (env1 env2 : Env)
    (hrep : ∃ x ∈ entryFor (mergeCollections registry) v,
      x.type = EnvironmentVariableMutatorType.Replace)
    (hagree : ∀ k, k ≠ v → listGet env1 k = listGet env2 k) :
    envRead
        (applyToProcessEnvironment false (mergeCollections registry) env1) v
      = envRead
          (applyToProcessEnvironment false (mergeCollections registry) env2)
          v := by
  have hnd := mergeCollections_fst_nodup registry
  have h1 : envRead
      (applyToProcessEnvironment false (mergeCollections registry) env1) v
      = applyValueList (entryFor (mergeCollections registry) v)
          (envRead env1 v) :=
    applyAllWith_false_read [] (mergeCollections registry) env1 v hnd
  have h2 : envRead
      (applyToProcessEnvironment false (mergeCollections registry) env2) v
      = applyValueList (entryFor (mergeCollections registry) v)
          (envRead env2 v) :=
    applyAllWith_false_read [] (mergeCollections registry) env2 v hnd
  have hinv := tailNoRep_mergeCollections registry v
  obtain ⟨x, hx, hxt⟩ := hrep
  cases hentry : entryFor (mergeCollections registry) v with
  | nil =>
    rw [hentry] at hx
    exact absurd hx (List.not_mem_nil x)
  | cons h0 t0 =>
    rw [hentry] at hx
    have hh0 : h0.type = EnvironmentVariableMutatorType.Replace := by
      rcases List.mem_cons.mp hx with rfl | hx'
      · exact hxt
      · exfalso
        refine hinv x ?_ hxt
        rw [hentry]
        exact hx'
    have hval : ∀ s : String,
        applyValueList (h0 :: t0) s = applyValueList t0 h0.value := by
      intro s
      rw [show applyValueList (h0 :: t0) s
          = applyValueList t0 (mutatorStep s h0) from rfl]
      rw [show mutatorStep s h0 = h0.value from by
        unfold mutatorStep
        rw [hh0]]
    rw [h1, h2, hentry, hval, hval]

theorem replace_shields_snapshot_witness :
    envRead
        (applyToProcessEnvironment false
          (mergeCollections [("e1", ⟨true, [("V", ⟨"r", .Replace⟩)]⟩)])
          ([] : Env)) "V"
      = envRead
          (applyToProcessEnvironment false
            (mergeCollections [("e1", ⟨true, [("V", ⟨"r", .Replace⟩)]⟩)])
            [("V", some "old")]) "V" :=
  replace_shields_snapshot [("e1", ⟨true, [("V", ⟨"r", .Replace⟩)]⟩)] "V"
    [] [("V", some "old")] (by decide)
    (by
      intro k hk
      simp [listGet, Ne.symm hk])
